import Mathlib

/-!
Verification of the pattern-compiling and stream-aggregation core of
`graph.py` (go-bench-graph).

The program is embedded shallowly:

* a small regex abstract syntax (`Atom`, `Rx`) covering the pattern
  dialect the program uses (character classes built from the escapes
  `\d`, `\w`, `\s`, literals, the wildcard `.`, greedy quantifiers
  `+ * ?` on classes, capturing groups, and the end anchor `$`);
* `matchSeq` / `searchFrom`, a backtracking matcher enumerating all
  matches in Python `re`'s priority order (leftmost start, greedy
  quantifiers first), so the head of the list is the match Python's
  `re.search` returns;
* `reCompile`, the syntactic validity check and translation of a pattern
  string into the abstract syntax, modelling `re.compile` on this
  dialect (a pattern outside the dialect is rejected, modelling a
  compile failure);
* `pyFormat`, Python `str.format` restricted to the keyword arguments
  `N`, `label`, `graph` used by the program;
* `format_regex`, the program's template compiler;
* `pyFloat`, Python `float()` restricted to sign/digit/dot text, the
  only text the program's capture classes can feed it (exact rational
  semantics; all values reaching the claims are exactly representable);
* `processLine` / `aggregate`, the `__main__` per-line aggregation loop,
  with the program-aborting numeric-conversion failure modelled as the
  `LineResult.crash` outcome and `none` at the aggregate level.
-/

/-- Character written with code 123, the opening curly brace. -/
def lbrace : Char := Char.ofNat 123

/-- Character written with code 125, the closing curly brace. -/
def rbrace : Char := Char.ofNat 125

/-- Whitespace characters recognised by the regex escape for spaces. -/
def isPySpace (c : Char) : Bool :=
  c == ' ' || c == '\t' || c == '\n' || c == '\r' || c == Char.ofNat 11 || c == Char.ofNat 12

/-- Word characters recognised by the regex word escape: alphanumerics and underscore. -/
def isPyWord (c : Char) : Bool :=
  c.isAlphanum || c == '_'

/-- One member of a regex character class. -/
inductive CItem where
  | cd            -- the digit escape
  | cw            -- the word-character escape
  | csp           -- the whitespace escape
  | anyc          -- the wildcard, any character but a newline
  | lit (c : Char)

/-- Test whether a class member accepts a character. -/
def itemMatch : CItem → Char → Bool
  | .cd, c => c.isDigit
  | .cw, c => isPyWord c
  | .csp, c => isPySpace c
  | .anyc, c => !(c == '\n')
  | .lit d, c => c == d

/-- Test whether a character class (a disjunction of members) accepts a character. -/
def clsMatch (items : List CItem) (c : Char) : Bool :=
  items.any (fun it => itemMatch it c)

/-- Greedy quantifier on a character class. -/
inductive Quant where
  | one | plus | star | opt

/-- Compiled pattern: a sequence of atoms in sequent (cons) form — a quantified
character class, a capturing group with its body, or the end anchor, each
followed by the rest of the sequence. -/
inductive Rx where
  | nil
  | cl (items : List CItem) (q : Quant) (rest : Rx)
  | grp (inner : Rx) (rest : Rx)
  | dollar (rest : Rx)

/-- Length of the maximal run of characters accepted by a class at the head of a string. -/
def clsTake (items : List CItem) : List Char → Nat
  | [] => 0
  | c :: rest => if clsMatch items c then clsTake items rest + 1 else 0

/-- Text consumed between a suffix `s` of the subject and a later suffix `rem`. -/
def capOf (s rem : List Char) : String :=
  (s.take (s.length - rem.length)).asString

/-- Candidate repetition counts for a quantified class, greedy (longest) first,
given the maximal run length `n`. -/
def quantKs : Quant → Nat → List Nat
  | .one, n => if 1 ≤ n then [1] else []
  | .plus, n => (List.range n).map (fun i => n - i)
  | .star, n => (List.range (n + 1)).map (fun i => n - i)
  | .opt, n => if 1 ≤ n then [1, 0] else [0]

/-- All matches of an atom sequence against a suffix of the subject, each as
(captured group texts, remaining suffix), in Python's backtracking priority
order: alternatives generated by earlier atoms dominate, and each greedy
quantifier yields longer repetitions first.  The anchor accepts the end of the
subject or the position just before a final newline, as Python's `$` does.
-/
def matchSeq : Rx → List Char → List (List String × List Char)
  | .nil, s => [([], s)]
  | .dollar rest, s =>
    if s = [] ∨ s = ['\n'] then matchSeq rest s else []
  | .cl items q rest, s =>
    (quantKs q (clsTake items s)).flatMap (fun k => matchSeq rest (s.drop k))
  | .grp inner rest, s =>
    (matchSeq inner s).flatMap (fun pr =>
      (matchSeq rest pr.2).map (fun qr => (capOf s pr.2 :: (pr.1 ++ qr.1), qr.2)))

/-- Unanchored search: try each start position from the left, returning the
captures of the first (leftmost, highest-priority) match, as `re.search` does. -/
def searchFrom (rx : Rx) : List Char → Option (List String)
  | [] =>
    match matchSeq rx [] with
    | r :: _ => some r.1
    | [] => none
  | c :: t =>
    match matchSeq rx (c :: t) with
    | r :: _ => some r.1
    | [] => searchFrom rx t

/-- Search a compiled pattern in a string, returning the captured group texts. -/
def rxSearch (rx : Rx) (s : String) : Option (List String) :=
  searchFrom rx s.toList

/-! ## The pattern-string dialect: `re.compile` on this subset -/

/-- Translate an escape character into a class member; alphanumeric escapes other
than the three class escapes are outside the supported dialect. -/
def escItem (e : Char) : Option CItem :=
  if e = 'd' then some .cd
  else if e = 'w' then some .cw
  else if e = 's' then some .csp
  else if e.isAlphanum then none
  else some (.lit e)

/-- Members of a character class after its (possibly literal) first character,
up to the closing bracket.  Ranges and negation are outside the dialect. -/
def parseClsItems : List Char → Option (List CItem × List Char)
  | [] => none
  | c :: rest =>
    if c = ']' then some ([], rest)
    else if c = '-' then none
    else if c = '\\' then
      match rest with
      | [] => none
      | e :: rest2 =>
        match escItem e with
        | none => none
        | some it =>
          match parseClsItems rest2 with
          | none => none
          | some (its, rem) => some (it :: its, rem)
    else
      match parseClsItems rest with
      | none => none
      | some (its, rem) => some (.lit c :: its, rem)

/-- Character class body directly after the opening bracket: a closing bracket
in first position is a literal member, as in Python. -/
def parseClsStart : List Char → Option (List CItem × List Char)
  | [] => none
  | c :: rest =>
    if c = '^' then none
    else if c = ']' then
      match parseClsItems rest with
      | none => none
      | some (its, rem) => some (.lit ']' :: its, rem)
    else parseClsItems (c :: rest)

/-- Read an optional greedy quantifier character. -/
def quantOf (cs : List Char) : Quant × List Char :=
  match cs with
  | c :: rest =>
    if c = '+' then (.plus, rest)
    else if c = '*' then (.star, rest)
    else if c = '?' then (.opt, rest)
    else (.one, c :: rest)
  | [] => (.one, [])

/-- Recursive-descent reading of an atom sequence, stopping at a closing
parenthesis; `fuel` dominates the length of the remaining input. -/
def parseSeq : Nat → List Char → Option (Rx × List Char)
  | 0, _ => none
  | _ + 1, [] => some (.nil, [])
  | f + 1, c :: rest =>
    if c = ')' then some (.nil, c :: rest)
    else if c = '$' then
      match parseSeq f rest with
      | none => none
      | some (as, rem) => some (.dollar as, rem)
    else if c = '(' then
      match rest with
      | [] => none
      | r0 :: _ =>
        if r0 = '?' then none
        else
          match parseSeq f rest with
          | none => none
          | some (inner, rem1) =>
            match rem1 with
            | [] => none
            | r :: rem2 =>
              if r = ')' then
                match rem2 with
                | q :: _ =>
                  if q = '+' ∨ q = '*' ∨ q = '?' then none
                  else
                    match parseSeq f rem2 with
                    | none => none
                    | some (as, rem) => some (.grp inner as, rem)
                | [] =>
                  match parseSeq f rem2 with
                  | none => none
                  | some (as, rem) => some (.grp inner as, rem)
              else none
    else if c = '[' then
      match parseClsStart rest with
      | none => none
      | some (its, rem1) =>
        match quantOf rem1 with
        | (q, rem2) =>
          match parseSeq f rem2 with
          | none => none
          | some (as, rem) => some (.cl its q as, rem)
    else if c = '\\' then
      match rest with
      | [] => none
      | e :: rest2 =>
        match escItem e with
        | none => none
        | some it =>
          match quantOf rest2 with
          | (q, rem2) =>
            match parseSeq f rem2 with
            | none => none
            | some (as, rem) => some (.cl [it] q as, rem)
    else if c = '+' ∨ c = '*' ∨ c = '?' ∨ c = '^' ∨ c = '|' ∨ c = lbrace ∨ c = rbrace then
      none
    else if c = '.' then
      match quantOf rest with
      | (q, rem2) =>
        match parseSeq f rem2 with
        | none => none
        | some (as, rem) => some (.cl [.anyc] q as, rem)
    else
      match quantOf rest with
      | (q, rem2) =>
        match parseSeq f rem2 with
        | none => none
        | some (as, rem) => some (.cl [.lit c] q as, rem)

/-- Syntactic validity check and translation of a pattern string, modelling
`re.compile` on the supported dialect: an unbalanced or unsupported pattern
yields `none`, modelling a compile-time failure. -/
def reCompile (s : String) : Option Rx :=
  match parseSeq (s.toList.length + 2) s.toList with
  | some (as, []) => some as
  | _ => none

/-! ## `str.format` with keywords `N`, `label`, `graph` -/

/-- Text of a replacement field up to the closing brace; fails on a nested
opening brace or a missing closing brace. -/
def takeName : List Char → Option (List Char × List Char)
  | [] => none
  | c :: rest =>
    if c = rbrace then some ([], rest)
    else if c = lbrace then none
    else
      match takeName rest with
      | none => none
      | some (nm, rem) => some (c :: nm, rem)

/-- Recursive worker for `pyFormat`; `fuel` dominates the input length. -/
def pyFormatAux (nv lv gv : List Char) : Nat → List Char → Option (List Char)
  | 0, _ => none
  | _ + 1, [] => some []
  | f + 1, c :: rest =>
    if c = lbrace then
      match rest with
      | [] => none
      | c2 :: rest2 =>
        if c2 = lbrace then
          match pyFormatAux nv lv gv f rest2 with
          | none => none
          | some out => some (lbrace :: out)
        else
          match takeName (c2 :: rest2) with
          | none => none
          | some (nm, rem) =>
            let rep? : Option (List Char) :=
              if nm = "N".toList then some nv
              else if nm = "label".toList then some lv
              else if nm = "graph".toList then some gv
              else none
            match rep? with
            | none => none
            | some rep =>
              match pyFormatAux nv lv gv f rem with
              | none => none
              | some out => some (rep ++ out)
    else if c = rbrace then
      match rest with
      | [] => none
      | c2 :: rest2 =>
        if c2 = rbrace then
          match pyFormatAux nv lv gv f rest2 with
          | none => none
          | some out => some (rbrace :: out)
        else none
    else
      match pyFormatAux nv lv gv f rest with
      | none => none
      | some out => some (c :: out)

/-- Python `str.format(N=nv, label=lv, graph=gv)`: replaces the three recognised
replacement fields, honours doubled-brace escapes, and fails (as `format` raises)
on a stray brace or an unrecognised field name. -/
def pyFormat (s nv lv gv : String) : Option String :=
  match pyFormatAux nv.toList lv.toList gv.toList (s.toList.length + 1) s.toList with
  | none => none
  | some out => some out.asString

/-- Substring containment, modelling Python's `in` on strings. -/
def containsSub (s pat : String) : Bool :=
  (List.range (s.toList.length + 1)).any (fun i => pat.toList.isPrefixOf (s.toList.drop i))

/-- Number of positions at which a pattern occurs in a string. -/
def occursCount (s pat : String) : Nat :=
  (List.range (s.toList.length + 1)).countP (fun i => pat.toList.isPrefixOf (s.toList.drop i))

/-! ## The template compiler `format_regex` -/

/-- Source text of the fixed measurement pattern `data_regex` in `graph.py`. -/
def data_regex_src : String := "(\\d+)\\s*([\\d\\.]+) ns\\/op$"

/-- The compiled fixed measurement matcher `data_regex`. -/
def data_regex : Rx :=
  .grp (.cl [.cd] .plus .nil)
    (.cl [.csp] .star
      (.grp (.cl [.cd, .lit '.'] .plus .nil)
        (.cl [.lit ' '] .one
          (.cl [.lit 'n'] .one
            (.cl [.lit 's'] .one
              (.cl [.lit '/'] .one
                (.cl [.lit 'o'] .one
                  (.cl [.lit 'p'] .one
                    (.dollar .nil)))))))))

/-- Whether the graph placeholder is absent from the template
(`"{graph}" not in general_regex`). -/
def graphDisabled (t : String) : Bool :=
  !(containsSub t "{graph}")

/-- The template after the conditional `general_regex += "{graph}"`. -/
def templEff (t : String) : String :=
  if graphDisabled t then t ++ "{graph}" else t

/-- Capturing digit class substituted at the size position. -/
def nCapCls : String := "([\\d]+)"

/-- Non-capturing digit class. -/
def nCls : String := "[\\d]+"

/-- Non-capturing name class built from `ALLOWED_NAME_CHARS`. -/
def nameCls : String := "[\\w\\d_]+"

/-- Capturing name class. -/
def nameCapCls : String := "([\\w\\d_]+)"

/-- Source text of the size matcher: the template with the size position capturing. -/
def specificSrc (t : String) : Option String :=
  pyFormat (templEff t) nCapCls nameCls (if graphDisabled t then "" else nameCls)

/-- Source text of the label matcher: the template with the label position capturing. -/
def labelSrc (t : String) : Option String :=
  pyFormat (templEff t) nCls nameCapCls (if graphDisabled t then "" else nameCls)

/-- Source text of the graph matcher: the template with the graph position capturing. -/
def graphSrc (t : String) : Option String :=
  pyFormat (templEff t) nCls nameCls nameCapCls

/-- The template compiler `format_regex` of `graph.py`: substitutes the three
placeholders to derive the size, label and (when the graph placeholder is
present) graph matchers, compiling each; any formatting or compile failure
propagates as `none`. -/
def format_regex (t : String) : Option (Rx × Rx × Option Rx) :=
  match specificSrc t with
  | none => none
  | some s1 =>
    match reCompile s1 with
    | none => none
    | some r1 =>
      match labelSrc t with
      | none => none
      | some s2 =>
        match reCompile s2 with
        | none => none
        | some r2 =>
          if graphDisabled t then some (r1, r2, none)
          else
            match graphSrc t with
            | none => none
            | some s3 =>
              match reCompile s3 with
              | none => none
              | some r3 => some (r1, r2, some r3)

/-! ## Numeric conversion -/

/-- Whether every character is a decimal digit. -/
def allDigits (cs : List Char) : Bool :=
  cs.all (fun c => c.isDigit)

/-- Value of a digit string. -/
def digitsToNat (cs : List Char) : Nat :=
  cs.foldl (fun a c => a * 10 + (c.toNat - 48)) 0

/-- Split a character list at every dot. -/
def splitDot : List Char → List (List Char)
  | [] => [[]]
  | c :: rest =>
    if c = '.' then [] :: splitDot rest
    else
      match splitDot rest with
      | [] => [[c]]
      | h :: t => (c :: h) :: t

/-- Exact value of a parsed numeric literal: `mant / 10 ^ scale`.  The decimal
text a capture class can produce is represented exactly (every value in the
verified scenarios is also exactly representable as a binary float, so the
representation agrees with Python's `float` there); the claims compare the
values through `PyNum.toRat`. -/
structure PyNum where
  mant : Int
  scale : Nat
deriving DecidableEq

/-- Rational value denoted by a parsed numeric literal. -/
def PyNum.toRat (x : PyNum) : ℚ :=
  (x.mant : ℚ) / (10 : ℚ) ^ x.scale

/-- Python `float()` restricted to sign/digit/dot text, the only text the
program's capture classes can produce.  Text with no digit, more than one dot,
or any other character fails, as `float` raises `ValueError` there. -/
def pyFloat (s : String) : Option PyNum :=
  let cs0 := s.toList
  let sgcs : Int × List Char :=
    match cs0 with
    | c :: rest =>
      if c = '-' then (-1, rest) else if c = '+' then (1, rest) else (1, cs0)
    | [] => (1, [])
  match splitDot sgcs.2 with
  | [a] =>
    if a ≠ [] ∧ allDigits a then some ⟨sgcs.1 * digitsToNat a, 0⟩ else none
  | [a, b] =>
    if (a ≠ [] ∨ b ≠ []) ∧ allDigits a ∧ allDigits b then
      some ⟨sgcs.1 * (digitsToNat a * 10 ^ b.length + digitsToNat b), b.length⟩
    else none
  | _ => none

/-- Replacement of every underscore by a space, the normalisation
`.replace("_", " ")` applied to label and graph names. -/
def underscoreToSpace (s : String) : String :=
  (s.toList.map (fun c => if c = '_' then ' ' else c)).asString

/-- Convert every captured text, failing if any conversion fails
(the list comprehension over `float`). -/
def floatsOf : List String → Option (List PyNum)
  | [] => some []
  | s :: rest =>
    match pyFloat s with
    | none => none
    | some q =>
      match floatsOf rest with
      | none => none
      | some qs => some (q :: qs)

/-! ## The aggregation loop -/

/-- One measurement row as appended to the data set: `[N, iterations, time]`. -/
abbrev Row := List PyNum

/-- Per-graph table: label, in insertion order, to its measurement rows. -/
abbrev GraphTbl := List (String × List Row)

/-- The data set: graph name, in insertion order, to its per-graph table. -/
abbrev Dataset := List (String × GraphTbl)

/-- The compiled matchers the loop consumes. -/
structure Matchers where
  specific : Rx
  labelRx : Rx
  graphRx : Option Rx

/-- Outcome of the loop body on one line: the line is skipped, a row is added
under a graph and label, or the program aborts on a failed numeric conversion
or a missing capture group. -/
inductive LineResult where
  | skip
  | add (graph lbl : String) (row : Row)
  | crash

/-- The body of the `__main__` loop of `graph.py` on one line, in source order:
measurement match (skip on failure), conversion of its captures (abort on
failure), size match (skip), conversion of its first capture (abort), label
match (skip), graph match when a graph matcher exists (skip), else the empty
graph name; underscores in label and graph names become spaces. -/
def processLine (m : Matchers) (line : String) : LineResult :=
  match rxSearch data_regex line with
  | none => .skip
  | some caps =>
    match floatsOf caps with
    | none => .crash
    | some to_add =>
      match rxSearch m.specific line with
      | none => .skip
      | some caps2 =>
        match caps2 with
        | [] => .crash
        | n0 :: _ =>
          match pyFloat n0 with
          | none => .crash
          | some nval =>
            match rxSearch m.labelRx line with
            | none => .skip
            | some caps3 =>
              match caps3 with
              | [] => .crash
              | l0 :: _ =>
                match m.graphRx with
                | none => .add "" (underscoreToSpace l0) (nval :: to_add)
                | some rg =>
                  match rxSearch rg line with
                  | none => .skip
                  | some caps4 =>
                    match caps4 with
                    | [] => .crash
                    | g0 :: _ =>
                      .add (underscoreToSpace g0) (underscoreToSpace l0) (nval :: to_add)

/-- Append a row under a label, creating the label entry at the end on first use. -/
def insertLbl : GraphTbl → String → Row → GraphTbl
  | [], l, row => [(l, [row])]
  | (l', rs) :: t, l, row =>
    if l' = l then (l', rs ++ [row]) :: t else (l', rs) :: insertLbl t l row

/-- Append a row under a graph and label, creating entries at the end on first use. -/
def insertRow : Dataset → String → String → Row → Dataset
  | [], g, l, row => [(g, insertLbl [] l row)]
  | (g', m) :: t, g, l, row =>
    if g' = g then (g', insertLbl m l row) :: t else (g', m) :: insertRow t g l row

/-- Rows stored under a label, the empty list when absent. -/
def lookupLbl : GraphTbl → String → List Row
  | [], _ => []
  | (l', rs) :: t, l => if l' = l then rs else lookupLbl t l

/-- Rows stored under a graph and label, the empty list when absent. -/
def seriesOf : Dataset → String → String → List Row
  | [], _, _ => []
  | (g', m) :: t, g, l => if g' = g then lookupLbl m l else seriesOf t g l

/-- One iteration of the loop on the data set: a skipped line leaves it
untouched, an added row is inserted, a crash aborts the run. -/
def stepLine (m : Matchers) (d : Dataset) (line : String) : Option Dataset :=
  match processLine m line with
  | .skip => some d
  | .crash => none
  | .add g l row => some (insertRow d g l row)

/-- The loop from a given data set over the remaining lines. -/
def aggregateFrom (m : Matchers) : Dataset → List String → Option Dataset
  | d, [] => some d
  | d, line :: rest =>
    match stepLine m d line with
    | none => none
    | some d' => aggregateFrom m d' rest

/-- The whole aggregation: the loop from the empty data set. -/
def aggregate (m : Matchers) (lines : List String) : Option Dataset :=
  aggregateFrom m [] lines

/-- The program pipeline on one template and an input stream: compile the
template, then aggregate; a template failure aborts before any input is read. -/
def runPipeline (t : String) (lines : List String) : Option Dataset :=
  match format_regex t with
  | none => none
  | some (r1, r2, g) => aggregate ⟨r1, r2, g⟩ lines

/-! ## Declarative match semantics and claim-level helpers -/

/-- Number of repetitions a quantifier admits. -/
def quantOk : Quant → Nat → Prop
  | .one, n => n = 1
  | .plus, n => 1 ≤ n
  | .star, _ => True
  | .opt, n => n ≤ 1

/-- Declarative semantics of the matcher: `SeqM rx s caps rem` states that the
pattern matches the front of the suffix `s`, producing the captures `caps` and
leaving the suffix `rem`. -/
inductive SeqM : Rx → List Char → List String → List Char → Prop where
  | nil (s : List Char) : SeqM .nil s [] s
  | dollar {rest s caps rem} (h : s = [] ∨ s = ['\n'])
      (hm : SeqM rest s caps rem) : SeqM (.dollar rest) s caps rem
  | cl {items q rest pre s caps rem} (hall : ∀ c ∈ pre, clsMatch items c = true)
      (hq : quantOk q pre.length) (hm : SeqM rest s caps rem) :
      SeqM (.cl items q rest) (pre ++ s) caps rem
  | grp {inner rest s caps1 mid caps2 rem} (h1 : SeqM inner s caps1 mid)
      (h2 : SeqM rest mid caps2 rem) :
      SeqM (.grp inner rest) s (capOf s mid :: (caps1 ++ caps2)) rem

/-- Whether every capturing group of a pattern is exactly the capturing
digit-run class substituted by the template compiler at the size position. -/
def digitGroupsOnly : Rx → Bool
  | .nil => true
  | .cl _ _ rest => digitGroupsOnly rest
  | .dollar rest => digitGroupsOnly rest
  | .grp (.cl [.cd] .plus .nil) rest => digitGroupsOnly rest
  | .grp _ _ => false

/-- Acceptance condition stated by the spec for the measurement matcher,
modelled from the spec's words for comparison with the code's `data_regex`:
the line ends with an integer, then whitespace, then a decimal number, then
the benchmark suffix at end of line.  The reading is generous to the spec:
the whitespace may be empty, the decimal number is any text `float` accepts,
and a trailing newline is allowed before the anchor. -/
def specMeasAccepts (s : String) : Bool :=
  [([] : List Char), ['\n']].any (fun fin =>
    let tail := ' ' :: 'n' :: 's' :: '/' :: 'o' :: 'p' :: fin
    let cs := s.toList
    tail.isSuffixOf cs &&
    (let core := cs.take (cs.length - tail.length)
     (List.range (core.length + 1)).any (fun i =>
       (List.range (core.length + 1)).any (fun j =>
         (List.range (core.length + 1)).any (fun k =>
           decide (i ≤ j) && decide (j ≤ k) &&
           (let ds := (core.drop i).take (j - i)
            let ws := (core.drop j).take (k - j)
            let dec := core.drop k
            !ds.isEmpty && allDigits ds && ws.all isPySpace &&
              (pyFloat dec.asString).isSome))))))

/-- Shape of the captures the measurement matcher returns: an iteration-count
capture of digits and a time capture of digits and dots, appearing in the line
in measurement position. -/
def CapShape (line : String) (caps : List String) : Prop :=
  ∃ a b ws fin,
    caps = [a, b] ∧
    a.toList ≠ [] ∧ allDigits a.toList = true ∧
    (∀ c ∈ ws, isPySpace c = true) ∧
    b.toList ≠ [] ∧ (∀ c ∈ b.toList, (c.isDigit || c == '.') = true) ∧
    (fin = [] ∨ fin = ['\n']) ∧
    (a.toList ++ ws ++ b.toList ++ (' ' :: 'n' :: 's' :: '/' :: 'o' :: 'p' :: fin))
      <:+ line.toList

/-- Selector used to state order preservation: the row a line contributes to
the series of a given graph and label, if any. -/
def rowSelector (m : Matchers) (g l : String) (line : String) : Option Row :=
  match processLine m line with
  | .add g' l' r => if g' = g ∧ l' = l then some r else none
  | _ => none

/-- No group of the data set is empty, and no series of any group is empty. -/
def InvNE (d : Dataset) : Prop :=
  ∀ p ∈ d, p.2 ≠ [] ∧ ∀ q ∈ p.2, q.2 ≠ []

/-- The matchers a template compiles to, with an inert fallback for templates
the compiler rejects (the program aborts there before reading input). -/
def mOf (t : String) : Matchers :=
  match format_regex t with
  | some (r1, r2, g) => ⟨r1, r2, g⟩
  | none => ⟨.nil, .nil, none⟩

/-! ## Matcher theory -/

theorem clsTake_le_length (items : List CItem) (s : List Char) :
    clsTake items s ≤ s.length := by
  induction s with
  | nil => simp [clsTake]
  | cons c t ih =>
    simp only [clsTake, List.length_cons]
    split <;> omega

theorem clsTake_matches (items : List CItem) :
    ∀ (s : List Char) (k : Nat), k ≤ clsTake items s →
      ∀ c ∈ s.take k, clsMatch items c = true := by
  intro s
  induction s with
  | nil => simp
  | cons a t ih =>
    intro k hk c hc
    cases k with
    | zero => simp at hc
    | succ k' =>
      simp only [clsTake] at hk
      by_cases hm : clsMatch items a = true
      · simp [hm] at hk
        simp only [List.take_succ_cons, List.mem_cons] at hc
        rcases hc with rfl | hc
        · exact hm
        · exact ih k' (by omega) c hc
      · simp [hm] at hk

theorem clsTake_append_ge (items : List CItem) (pre s : List Char)
    (h : ∀ c ∈ pre, clsMatch items c = true) :
    pre.length ≤ clsTake items (pre ++ s) := by
  induction pre with
  | nil => simp
  | cons a t ih =>
    have ha : clsMatch items a = true := h a (by simp)
    simp only [List.cons_append, clsTake, ha, if_pos, List.length_cons]
    have ht := ih (fun c hc => h c (by simp [hc]))
    simp only [List.append_eq] at ht ⊢
    omega

theorem mem_quantKs {q : Quant} {n k : Nat} (h : k ∈ quantKs q n) :
    k ≤ n ∧ quantOk q k := by
  cases q
  · simp only [quantKs] at h
    split at h <;> simp_all [quantOk]
  · simp only [quantKs, List.mem_map, List.mem_range] at h
    obtain ⟨i, hi, hk⟩ := h
    exact ⟨by omega, show 1 ≤ k by omega⟩
  · simp only [quantKs, List.mem_map, List.mem_range] at h
    obtain ⟨i, hi, hk⟩ := h
    exact ⟨by omega, trivial⟩
  · simp only [quantKs] at h
    split at h
    · simp only [List.mem_cons, List.mem_singleton, List.not_mem_nil, or_false] at h
      rcases h with rfl | rfl <;> exact ⟨by omega, by simp [quantOk]⟩
    · simp only [List.mem_singleton] at h
      subst h
      exact ⟨by omega, by simp [quantOk]⟩

theorem mem_quantKs_intro {q : Quant} {n k : Nat} (hk : k ≤ n) (hq : quantOk q k) :
    k ∈ quantKs q n := by
  cases q <;> simp only [quantKs, quantOk] at hq ⊢
  · subst hq
    simp [Nat.one_le_iff_ne_zero]
    omega
  · simp only [List.mem_map, List.mem_range]
    exact ⟨n - k, by omega, by omega⟩
  · simp only [List.mem_map, List.mem_range]
    exact ⟨n - k, by omega, by omega⟩
  · rcases Nat.le_one_iff_eq_zero_or_eq_one.mp hq with rfl | rfl
    · split <;> simp
    · have : 1 ≤ n := hk
      simp [this]

theorem matchSeq_sound :
    ∀ (rx : Rx) (s : List Char) (caps : List String) (rem : List Char),
      (caps, rem) ∈ matchSeq rx s → SeqM rx s caps rem := by
  intro rx
  induction rx with
  | nil =>
    intro s caps rem h
    simp only [matchSeq, List.mem_singleton, Prod.mk.injEq] at h
    obtain ⟨rfl, rfl⟩ := h
    exact SeqM.nil _
  | dollar rest ih =>
    intro s caps rem h
    simp only [matchSeq] at h
    split at h
    · exact SeqM.dollar (by assumption) (ih s caps rem h)
    · simp at h
  | cl items q rest ih =>
    intro s caps rem h
    simp only [matchSeq, List.mem_flatMap] at h
    obtain ⟨k, hk, hmem⟩ := h
    obtain ⟨hkn, hq⟩ := mem_quantKs hk
    have hklen : k ≤ s.length := le_trans hkn (clsTake_le_length items s)
    have hs : s = s.take k ++ s.drop k := (List.take_append_drop k s).symm
    rw [hs]
    apply SeqM.cl (clsTake_matches items s k hkn)
    · have : (s.take k).length = k := by
        simp [List.length_take]
        omega
      rw [this]
      exact hq
    · exact ih (s.drop k) caps rem hmem
  | grp inner rest ih1 ih2 =>
    intro s caps rem h
    simp only [matchSeq, List.mem_flatMap, List.mem_map] at h
    obtain ⟨⟨caps1, mid⟩, hpr, ⟨caps2, rem2⟩, hqr, heq⟩ := h
    cases heq
    exact SeqM.grp (ih1 s caps1 mid hpr) (ih2 mid caps2 rem2 hqr)

theorem matchSeq_complete {rx : Rx} {s : List Char} {caps : List String}
    {rem : List Char} (h : SeqM rx s caps rem) : (caps, rem) ∈ matchSeq rx s := by
  induction h with
  | nil s => simp [matchSeq]
  | dollar hd _ ih =>
    simp only [matchSeq, if_pos hd]
    exact ih
  | cl hall hq hm ih =>
    rename_i items q rest pre s' caps' rem'
    simp only [matchSeq, List.mem_flatMap]
    refine ⟨pre.length, mem_quantKs_intro (clsTake_append_ge items pre s' hall) hq, ?_⟩
    rw [List.drop_left]
    exact ih
  | grp _ _ ih1 ih2 =>
    simp only [matchSeq, List.mem_flatMap, List.mem_map]
    exact ⟨_, ih1, _, ih2, rfl⟩

theorem SeqM_consumes {rx : Rx} {s : List Char} {caps : List String}
    {rem : List Char} (h : SeqM rx s caps rem) : rem <:+ s := by
  induction h with
  | nil s => exact List.suffix_refl s
  | dollar _ _ ih => exact ih
  | cl _ _ _ ih => exact ih.trans (List.suffix_append _ _)
  | grp _ _ ih1 ih2 => exact ih2.trans ih1

theorem searchFrom_sound {rx : Rx} :
    ∀ {s : List Char} {caps : List String}, searchFrom rx s = some caps →
      ∃ t rem, t <:+ s ∧ SeqM rx t caps rem := by
  intro s
  induction s with
  | nil =>
    intro caps h
    simp only [searchFrom] at h
    cases hm : matchSeq rx [] with
    | nil => rw [hm] at h; exact absurd h (by simp)
    | cons r tl =>
      rw [hm] at h
      obtain rfl : r.1 = caps := by simpa using h
      exact ⟨[], r.2, List.suffix_refl _,
        matchSeq_sound rx [] r.1 r.2 (hm ▸ List.mem_cons_self r tl)⟩
  | cons c t ih =>
    intro caps h
    simp only [searchFrom] at h
    cases hm : matchSeq rx (c :: t) with
    | nil =>
      rw [hm] at h
      obtain ⟨u, rem, hu, hseq⟩ := ih h
      exact ⟨u, rem, List.suffix_cons_iff.mpr (Or.inr hu), hseq⟩
    | cons r tl =>
      rw [hm] at h
      obtain rfl : r.1 = caps := by simpa using h
      exact ⟨c :: t, r.2, List.suffix_refl _,
        matchSeq_sound rx (c :: t) r.1 r.2 (hm ▸ List.mem_cons_self r tl)⟩

theorem searchFrom_complete {rx : Rx} {t : List Char} {caps : List String}
    {rem : List Char} (h : SeqM rx t caps rem) :
    ∀ {s : List Char}, t <:+ s → (searchFrom rx s).isSome = true := by
  intro s
  induction s with
  | nil =>
    intro hs
    obtain rfl := List.suffix_nil.mp hs
    have hmem := matchSeq_complete h
    simp only [searchFrom]
    cases hm : matchSeq rx [] with
    | nil => rw [hm] at hmem; exact absurd hmem (by simp)
    | cons r tl => simp
  | cons c s' ih =>
    intro hs
    simp only [searchFrom]
    cases hm : matchSeq rx (c :: s') with
    | nil =>
      rcases List.suffix_cons_iff.mp hs with rfl | hs'
      · have hmem := matchSeq_complete h
        rw [hm] at hmem
        exact absurd hmem (by simp)
      · exact ih hs'
    | cons r tl => simp

theorem rxSearch_prepend {rx : Rx} {s : String} (p : String)
    (h : (rxSearch rx s).isSome = true) : (rxSearch rx (p ++ s)).isSome = true := by
  obtain ⟨caps, hc⟩ := Option.isSome_iff_exists.mp h
  obtain ⟨t, rem, ht, hseq⟩ := searchFrom_sound hc
  have htp : t <:+ (p ++ s).toList := by
    have : (p ++ s).toList = p.toList ++ s.toList := rfl
    rw [this]
    exact ht.trans (List.suffix_append _ _)
  exact searchFrom_complete hseq htp

theorem capOf_append (pre rem : List Char) : capOf (pre ++ rem) rem = pre.asString := by
  simp only [capOf, List.length_append]
  rw [Nat.add_sub_cancel, List.take_left]

theorem clsMatch_cd (c : Char) : clsMatch [CItem.cd] c = c.isDigit := by
  simp [clsMatch, itemMatch]

theorem SeqM_nil_inv {s : List Char} {caps : List String} {rem : List Char}
    (h : SeqM .nil s caps rem) : caps = [] ∧ rem = s := by
  cases h
  exact ⟨rfl, rfl⟩

theorem SeqM_dollar_inv {rest : Rx} {s : List Char} {caps : List String}
    {rem : List Char} (h : SeqM (.dollar rest) s caps rem) :
    (s = [] ∨ s = ['\n']) ∧ SeqM rest s caps rem := by
  cases h
  exact ⟨by assumption, by assumption⟩

theorem SeqM_cl_inv {items : List CItem} {q : Quant} {rest : Rx} {s : List Char}
    {caps : List String} {rem : List Char} (h : SeqM (.cl items q rest) s caps rem) :
    ∃ pre s', s = pre ++ s' ∧ (∀ c ∈ pre, clsMatch items c = true) ∧
      quantOk q pre.length ∧ SeqM rest s' caps rem := by
  cases h with
  | cl hall hq hm => exact ⟨_, _, rfl, hall, hq, hm⟩

theorem SeqM_grp_inv {inner rest : Rx} {s : List Char} {caps : List String}
    {rem : List Char} (h : SeqM (.grp inner rest) s caps rem) :
    ∃ caps1 mid caps2, caps = capOf s mid :: (caps1 ++ caps2) ∧
      SeqM inner s caps1 mid ∧ SeqM rest mid caps2 rem := by
  cases h with
  | grp h1 h2 => exact ⟨_, _, _, rfl, h1, h2⟩

theorem SeqM_digit_grp_inv {rest : Rx} {s : List Char} {caps : List String}
    {rem : List Char} (h : SeqM (.grp (.cl [.cd] .plus .nil) rest) s caps rem) :
    ∃ pre mid caps2, s = pre ++ mid ∧ pre ≠ [] ∧ allDigits pre = true ∧
      caps = pre.asString :: caps2 ∧ SeqM rest mid caps2 rem := by
  obtain ⟨caps1, mid, caps2, hcaps, h1, h2⟩ := SeqM_grp_inv h
  obtain ⟨pre, s', hs, hall, hq, hnil⟩ := SeqM_cl_inv h1
  obtain ⟨rfl, rfl⟩ := SeqM_nil_inv hnil
  subst hs
  refine ⟨pre, mid, caps2, rfl, ?_, ?_, ?_, h2⟩
  · intro hpre
    subst hpre
    simp only [quantOk, List.length_nil] at hq
    omega
  · simp only [allDigits, List.all_eq_true]
    intro c hc
    have := hall c hc
    rwa [clsMatch_cd] at this
  · rw [hcaps, capOf_append]
    simp

theorem digitGroupsOnly_grp_inv {inner rest : Rx}
    (h : digitGroupsOnly (.grp inner rest) = true) :
    inner = .cl [CItem.cd] .plus .nil ∧ digitGroupsOnly rest = true := by
  cases inner with
  | nil => simp [digitGroupsOnly] at h
  | dollar r => simp [digitGroupsOnly] at h
  | grp a b => simp [digitGroupsOnly] at h
  | cl items q r =>
    cases items with
    | nil => simp [digitGroupsOnly] at h
    | cons it its =>
      cases it <;> try simp [digitGroupsOnly] at h
      cases its with
      | cons a b => simp [digitGroupsOnly] at h
      | nil =>
        cases q <;> try simp [digitGroupsOnly] at h
        cases r with
        | nil => exact ⟨rfl, h⟩
        | cl a b c => simp [digitGroupsOnly] at h
        | grp a b => simp [digitGroupsOnly] at h
        | dollar a => simp [digitGroupsOnly] at h

theorem digit_caps {rx : Rx} {s : List Char} {caps : List String} {rem : List Char}
    (hdg : digitGroupsOnly rx = true) (h : SeqM rx s caps rem) :
    ∀ a ∈ caps, a.toList ≠ [] ∧ allDigits a.toList = true := by
  induction h with
  | nil s => simp
  | dollar _ _ ih => exact ih hdg
  | cl _ _ _ ih => exact ih hdg
  | grp h1 h2 ih1 ih2 =>
    rename_i inner rest s' caps1 mid caps2 rem'
    obtain ⟨hinner, hrest⟩ := digitGroupsOnly_grp_inv hdg
    subst hinner
    obtain ⟨pre, mid', caps2', hs, hne, hdig, hcaps, h2'⟩ :=
      SeqM_digit_grp_inv (SeqM.grp h1 h2)
    rw [hcaps]
    intro a ha
    rcases List.mem_cons.mp ha with rfl | ha'
    · rw [List.toList_asString]
      exact ⟨hne, hdig⟩
    · have hcc : caps1 ++ caps2 = caps2' := by
        have := hcaps
        simp at this
        exact this.2
      rw [← hcc] at ha'
      rcases List.mem_append.mp ha' with h1m | h2m
      · exact ih1 (by rfl) a h1m
      · exact ih2 hrest a h2m

theorem splitDot_no_dot {cs : List Char} (h : ∀ c ∈ cs, ¬ c = '.') :
    splitDot cs = [cs] := by
  induction cs with
  | nil => rfl
  | cons c t ih =>
    have hc : ¬ c = '.' := h c (by simp)
    have ht := ih (fun x hx => h x (by simp [hx]))
    simp only [splitDot, if_neg hc, ht]

theorem pyFloat_digits (cs : List Char) (hne : cs ≠ []) (hd : allDigits cs = true) :
    (pyFloat cs.asString).isSome = true := by
  have hdd : ∀ c ∈ cs, c.isDigit = true := by
    simpa only [allDigits, List.all_eq_true] using hd
  have hnd : ∀ c ∈ cs, ¬ c = '.' := by
    intro c hc hcon
    subst hcon
    exact absurd (hdd _ hc) (by decide)
  cases cs with
  | nil => exact absurd rfl hne
  | cons c rest =>
    have hcm : ¬ c = '-' := by
      intro hcon
      subst hcon
      exact absurd (hdd '-' (List.mem_cons_self _ _)) (by decide)
    have hcp : ¬ c = '+' := by
      intro hcon
      subst hcon
      exact absurd (hdd '+' (List.mem_cons_self _ _)) (by decide)
    simp only [pyFloat, List.toList_asString, if_neg hcm, if_neg hcp,
      splitDot_no_dot hnd]
    simp [hd]

theorem lookupLbl_insertLbl (m : GraphTbl) (l : String) (row : Row) (l' : String) :
    lookupLbl (insertLbl m l row) l' =
      if l' = l then lookupLbl m l' ++ [row] else lookupLbl m l' := by
  induction m with
  | nil =>
    rcases eq_or_ne l' l with h | h
    · subst h
      simp [insertLbl, lookupLbl]
    · simp [insertLbl, lookupLbl, h, Ne.symm h]
  | cons p t ih =>
    obtain ⟨l0, rs⟩ := p
    rcases eq_or_ne l0 l with h0 | h0
    · subst h0
      rcases eq_or_ne l' l0 with h' | h'
      · subst h'
        simp [insertLbl, lookupLbl]
      · simp [insertLbl, lookupLbl, h', Ne.symm h']
    · rcases eq_or_ne l' l0 with h' | h'
      · subst h'
        simp [insertLbl, lookupLbl, h0, Ne.symm h0]
      · simp [insertLbl, lookupLbl, h0, h', Ne.symm h', ih]

theorem seriesOf_insertRow (d : Dataset) (g l : String) (row : Row) (g' l' : String) :
    seriesOf (insertRow d g l row) g' l' =
      if g' = g ∧ l' = l then seriesOf d g' l' ++ [row] else seriesOf d g' l' := by
  induction d with
  | nil =>
    rcases eq_or_ne g' g with hg | hg
    · subst hg
      rcases eq_or_ne l' l with hl | hl
      · subst hl
        simp [insertRow, seriesOf, insertLbl, lookupLbl]
      · simp [insertRow, seriesOf, insertLbl, lookupLbl, hl, Ne.symm hl]
    · simp [insertRow, seriesOf, hg, Ne.symm hg]
  | cons p t ih =>
    obtain ⟨g0, mm⟩ := p
    rcases eq_or_ne g0 g with h0 | h0
    · subst h0
      rcases eq_or_ne g' g0 with hg | hg
      · subst hg
        simp [insertRow, seriesOf, lookupLbl_insertLbl]
      · simp [insertRow, seriesOf, hg, Ne.symm hg]
    · rcases eq_or_ne g' g0 with hg | hg
      · subst hg
        simp [insertRow, seriesOf, h0, Ne.symm h0]
      · simp [insertRow, seriesOf, h0, hg, Ne.symm hg, ih]

theorem aggregateFrom_series (m : Matchers) (g l : String) :
    ∀ (lines : List String) (d0 d : Dataset), aggregateFrom m d0 lines = some d →
      seriesOf d g l = seriesOf d0 g l ++ lines.filterMap (rowSelector m g l) := by
  intro lines
  induction lines with
  | nil =>
    intro d0 d h
    obtain rfl : d0 = d := by simpa [aggregateFrom] using h
    simp
  | cons line rest ih =>
    intro d0 d h
    simp only [aggregateFrom] at h
    cases hp : processLine m line with
    | skip =>
      rw [stepLine, hp] at h
      simp only at h
      rw [ih d0 d h]
      simp [rowSelector, hp]
    | crash =>
      rw [stepLine, hp] at h
      simp at h
    | add g0 l0 r =>
      rw [stepLine, hp] at h
      simp only at h
      rw [ih _ d h, seriesOf_insertRow]
      by_cases hgl : g0 = g ∧ l0 = l
      · obtain ⟨hg, hl⟩ := hgl
        subst hg
        subst hl
        simp [rowSelector, hp, List.filterMap_cons, List.append_assoc]
      · have hgl' : ¬ (g = g0 ∧ l = l0) := fun hc => hgl ⟨hc.1.symm, hc.2.symm⟩
        rw [if_neg hgl']
        have : rowSelector m g l line = none := by
          simp only [rowSelector, hp]
          rw [if_neg hgl]
        simp [List.filterMap_cons, this]

theorem insertLbl_ne_nil (mm : GraphTbl) (l : String) (row : Row) :
    insertLbl mm l row ≠ [] := by
  cases mm with
  | nil => simp [insertLbl]
  | cons p t =>
    obtain ⟨l0, rs⟩ := p
    by_cases h : l0 = l <;> simp [insertLbl, h]

theorem insertLbl_entries (mm : GraphTbl) (l : String) (row : Row)
    (h : ∀ q ∈ mm, q.2 ≠ []) : ∀ q ∈ insertLbl mm l row, q.2 ≠ [] := by
  induction mm with
  | nil =>
    intro q hq
    simp only [insertLbl, List.mem_singleton] at hq
    subst hq
    simp
  | cons p t ih =>
    obtain ⟨l0, rs⟩ := p
    by_cases h0 : l0 = l
    · intro q hq
      simp only [insertLbl, if_pos h0, List.mem_cons] at hq
      rcases hq with rfl | hq
      · simp
      · exact h q (by simp [hq])
    · intro q hq
      simp only [insertLbl, if_neg h0, List.mem_cons] at hq
      rcases hq with rfl | hq
      · exact h (l0, rs) (by simp)
      · exact ih (fun q' hq' => h q' (by simp [hq'])) q hq

theorem InvNE_insertRow (d : Dataset) (g l : String) (row : Row)
    (h : InvNE d) : InvNE (insertRow d g l row) := by
  induction d with
  | nil =>
    intro p hp
    simp only [insertRow, List.mem_singleton] at hp
    subst hp
    refine ⟨insertLbl_ne_nil _ _ _, insertLbl_entries _ _ _ ?_⟩
    simp
  | cons p0 t ih =>
    obtain ⟨g0, mm⟩ := p0
    by_cases h0 : g0 = g
    · intro p hp
      simp only [insertRow, if_pos h0, List.mem_cons] at hp
      rcases hp with rfl | hp
      · have hmm := h (g0, mm) (by simp)
        exact ⟨insertLbl_ne_nil _ _ _, insertLbl_entries _ _ _ hmm.2⟩
      · exact h p (by simp [hp])
    · intro p hp
      simp only [insertRow, if_neg h0, List.mem_cons] at hp
      rcases hp with rfl | hp
      · exact h (g0, mm) (by simp)
      · exact ih (fun p' hp' => h p' (by simp [hp'])) p hp

theorem processLine_graphRx_none {m : Matchers} {line : String} {g l : String}
    {r : Row} (hg : m.graphRx = none) (hp : processLine m line = .add g l r) :
    g = "" := by
  unfold processLine at hp
  rw [hg] at hp
  repeat' split at hp
  all_goals simp_all

theorem processLine_add_searches {m : Matchers} {line : String} {g l : String}
    {r : Row} (hp : processLine m line = .add g l r) :
    (rxSearch data_regex line).isSome = true ∧
      (rxSearch m.specific line).isSome = true ∧
      (rxSearch m.labelRx line).isSome = true ∧
      (∀ rg, m.graphRx = some rg → (rxSearch rg line).isSome = true) := by
  unfold processLine at hp
  repeat' split at hp
  all_goals simp_all

theorem processLine_prefix_ne_skip {m : Matchers} {line : String} {g l : String}
    {r : Row} (p : String) (hp : processLine m line = .add g l r) :
    processLine m (p ++ line) ≠ .skip := by
  obtain ⟨h1, h2, h3, h4⟩ := processLine_add_searches hp
  have h1' := rxSearch_prepend p h1
  have h2' := rxSearch_prepend p h2
  have h3' := rxSearch_prepend p h3
  intro hcon
  unfold processLine at hcon
  repeat' split at hcon
  all_goals simp_all
  case _ hg hs =>
    exact absurd (rxSearch_prepend p h4) (by simp [hs])

theorem InvNE_step {m : Matchers} {d : Dataset} {line : String} {d' : Dataset}
    (h : InvNE d) (hs : stepLine m d line = some d') : InvNE d' := by
  cases hp : processLine m line with
  | skip =>
    rw [stepLine, hp] at hs
    simp only [Option.some.injEq] at hs
    exact hs ▸ h
  | crash =>
    rw [stepLine, hp] at hs
    simp at hs
  | add g l r =>
    rw [stepLine, hp] at hs
    simp only [Option.some.injEq] at hs
    exact hs ▸ InvNE_insertRow d g l r h

theorem InvNE_aggregateFrom {m : Matchers} :
    ∀ (lines : List String) (d0 d : Dataset), InvNE d0 →
      aggregateFrom m d0 lines = some d → InvNE d := by
  intro lines
  induction lines with
  | nil =>
    intro d0 d h0 h
    obtain rfl : d0 = d := by simpa [aggregateFrom] using h
    exact h0
  | cons line rest ih =>
    intro d0 d h0 h
    simp only [aggregateFrom] at h
    cases hs : stepLine m d0 line with
    | none => rw [hs] at h; simp at h
    | some d1 =>
      rw [hs] at h
      exact ih d1 d (InvNE_step h0 hs) h

theorem containsSub_iff_occurs (s pat : String) :
    containsSub s pat = true ↔ 0 < occursCount s pat := by
  rw [containsSub, occursCount, List.any_eq_true, List.countP_pos_iff]

theorem format_regex_eq_none_iff (t : String) :
    format_regex t = none ↔
      ((specificSrc t).bind reCompile = none ∨ (labelSrc t).bind reCompile = none ∨
        (graphDisabled t = false ∧ (graphSrc t).bind reCompile = none)) := by
  unfold format_regex
  cases h1 : specificSrc t with
  | none => simp [Option.bind]
  | some s1 =>
    cases h2 : reCompile s1 with
    | none => simp [Option.bind, h2]
    | some r1 =>
      cases h3 : labelSrc t with
      | none => simp [Option.bind, h2]
      | some s2 =>
        cases h4 : reCompile s2 with
        | none => simp [Option.bind, h2, h4]
        | some r2 =>
          cases hd : graphDisabled t with
          | true => simp [Option.bind, h2, h4]
          | false =>
            cases h5 : graphSrc t with
            | none => simp [Option.bind, h2, h4]
            | some s3 =>
              cases h6 : reCompile s3 with
              | none => simp [Option.bind, h2, h4, h6]
              | some r3 => simp [Option.bind, h2, h4, h6]

theorem clsMatch_csp (c : Char) : clsMatch [CItem.csp] c = isPySpace c := by
  simp [clsMatch, itemMatch]

theorem clsMatch_cddot (c : Char) :
    clsMatch [CItem.cd, CItem.lit '.'] c = (c.isDigit || c == '.') := by
  simp [clsMatch, itemMatch]

theorem SeqM_plus_grp_inv {items : List CItem} {rest : Rx} {s : List Char}
    {caps : List String} {rem : List Char}
    (h : SeqM (.grp (.cl items .plus .nil) rest) s caps rem) :
    ∃ pre mid caps2, s = pre ++ mid ∧ pre ≠ [] ∧
      (∀ c ∈ pre, clsMatch items c = true) ∧
      caps = pre.asString :: caps2 ∧ SeqM rest mid caps2 rem := by
  obtain ⟨caps1, mid, caps2, hcaps, h1, h2⟩ := SeqM_grp_inv h
  obtain ⟨pre, s', hs, hall, hq, hnil⟩ := SeqM_cl_inv h1
  obtain ⟨rfl, rfl⟩ := SeqM_nil_inv hnil
  subst hs
  refine ⟨pre, mid, caps2, rfl, ?_, hall, ?_, h2⟩
  · intro hpre
    subst hpre
    simp only [quantOk, List.length_nil] at hq
    omega
  · rw [hcaps, capOf_append]
    simp

theorem SeqM_lit_inv {ch : Char} {rest : Rx} {s : List Char} {caps : List String}
    {rem : List Char} (h : SeqM (.cl [.lit ch] .one rest) s caps rem) :
    ∃ s', s = ch :: s' ∧ SeqM rest s' caps rem := by
  obtain ⟨pre, s', hs, hall, hq, hm⟩ := SeqM_cl_inv h
  simp only [quantOk] at hq
  obtain ⟨a, rfl⟩ := List.length_eq_one.mp hq
  have ha := hall a (by simp)
  simp only [clsMatch, itemMatch, List.any_cons, List.any_nil, Bool.or_false,
    beq_iff_eq] at ha
  subst ha
  subst hs
  exact ⟨s', rfl, hm⟩

theorem SeqM_lit_intro (ch : Char) {rest : Rx} {s : List Char} {caps : List String}
    {rem : List Char} (h : SeqM rest s caps rem) :
    SeqM (.cl [.lit ch] .one rest) (ch :: s) caps rem := by
  have : SeqM (.cl [.lit ch] .one rest) ([ch] ++ s) caps rem := by
    refine SeqM.cl ?_ (by simp [quantOk]) h
    intro c hc
    simp only [List.mem_singleton] at hc
    subst hc
    simp [clsMatch, itemMatch]
  simpa using this

theorem SeqM_plus_grp_intro (items : List CItem) {pre mid : List Char}
    (hne : pre ≠ []) (hall : ∀ c ∈ pre, clsMatch items c = true) {rest : Rx}
    {caps : List String} {rem : List Char} (h : SeqM rest mid caps rem) :
    SeqM (.grp (.cl items .plus .nil) rest) (pre ++ mid)
      (pre.asString :: caps) rem := by
  have hq : quantOk .plus pre.length := by
    simp only [quantOk]
    cases pre with
    | nil => exact absurd rfl hne
    | cons a t => simp
  have inner : SeqM (.cl items .plus .nil) (pre ++ mid) [] mid :=
    SeqM.cl hall hq (SeqM.nil mid)
  have := SeqM.grp inner h
  rwa [capOf_append, List.nil_append] at this

theorem data_regex_inv {t : List Char} {caps : List String} {rem : List Char}
    (h : SeqM data_regex t caps rem) :
    ∃ ds ws ts fin,
      t = ds ++ (ws ++ (ts ++ (' ' :: 'n' :: 's' :: '/' :: 'o' :: 'p' :: fin))) ∧
      ds ≠ [] ∧ allDigits ds = true ∧ (∀ c ∈ ws, isPySpace c = true) ∧
      ts ≠ [] ∧ (∀ c ∈ ts, (c.isDigit || c == '.') = true) ∧
      (fin = [] ∨ fin = ['\n']) ∧ caps = [ds.asString, ts.asString] := by
  obtain ⟨ds, mid1, caps2, ht, hdne, hddig, hcaps, h1⟩ := SeqM_digit_grp_inv h
  obtain ⟨ws, mid2, hmid1, hws, _, h2⟩ := SeqM_cl_inv h1
  obtain ⟨ts, mid3, caps3, hmid2, htne, htdd, hcaps2, h3⟩ := SeqM_plus_grp_inv h2
  obtain ⟨m4, hm4, h4⟩ := SeqM_lit_inv h3
  obtain ⟨m5, hm5, h5⟩ := SeqM_lit_inv h4
  obtain ⟨m6, hm6, h6⟩ := SeqM_lit_inv h5
  obtain ⟨m7, hm7, h7⟩ := SeqM_lit_inv h6
  obtain ⟨m8, hm8, h8⟩ := SeqM_lit_inv h7
  obtain ⟨m9, hm9, h9⟩ := SeqM_lit_inv h8
  obtain ⟨hfin, h10⟩ := SeqM_dollar_inv h9
  obtain ⟨hcaps3, _⟩ := SeqM_nil_inv h10
  subst hm9
  subst hm8
  subst hm7
  subst hm6
  subst hm5
  subst hm4
  subst hmid2
  subst hmid1
  subst ht
  refine ⟨ds, ws, ts, m9, rfl, hdne, hddig, ?_, htne, ?_, hfin, ?_⟩
  · intro c hc
    have := hws c hc
    rwa [clsMatch_csp] at this
  · intro c hc
    have := htdd c hc
    rwa [clsMatch_cddot] at this
  · rw [hcaps, hcaps2, hcaps3]

theorem data_regex_intro (ds ws ts fin : List Char)
    (hdne : ds ≠ []) (hddig : allDigits ds = true)
    (hws : ∀ c ∈ ws, isPySpace c = true)
    (htne : ts ≠ []) (htdd : ∀ c ∈ ts, (c.isDigit || c == '.') = true)
    (hfin : fin = [] ∨ fin = ['\n']) :
    SeqM data_regex (ds ++ (ws ++ (ts ++ (' ' :: 'n' :: 's' :: '/' :: 'o' :: 'p' :: fin))))
      [ds.asString, ts.asString] fin := by
  have d9 : SeqM (.dollar .nil) fin [] fin := SeqM.dollar hfin (SeqM.nil fin)
  have d8 := SeqM_lit_intro 'p' d9
  have d7 := SeqM_lit_intro 'o' d8
  have d6 := SeqM_lit_intro '/' d7
  have d5 := SeqM_lit_intro 's' d6
  have d4 := SeqM_lit_intro 'n' d5
  have d3 := SeqM_lit_intro ' ' d4
  have dts : ∀ c ∈ ts, clsMatch [CItem.cd, CItem.lit '.'] c = true := by
    intro c hc
    rw [clsMatch_cddot]
    exact htdd c hc
  have d2 := SeqM_plus_grp_intro _ htne dts d3
  have d1 : SeqM (.cl [CItem.csp] .star
      (.grp (.cl [CItem.cd, CItem.lit '.'] .plus .nil)
        (.cl [CItem.lit ' '] .one
          (.cl [CItem.lit 'n'] .one
            (.cl [CItem.lit 's'] .one
              (.cl [CItem.lit '/'] .one
                (.cl [CItem.lit 'o'] .one
                  (.cl [CItem.lit 'p'] .one (.dollar .nil)))))))))
      (ws ++ (ts ++ (' ' :: 'n' :: 's' :: '/' :: 'o' :: 'p' :: fin)))
      [ts.asString] fin := by
    refine SeqM.cl ?_ trivial d2
    intro c hc
    rw [clsMatch_csp]
    exact hws c hc
  have dds : ∀ c ∈ ds, clsMatch [CItem.cd] c = true := by
    intro c hc
    rw [clsMatch_cd]
    simp only [allDigits, List.all_eq_true] at hddig
    exact hddig c hc
  exact SeqM_plus_grp_intro _ hdne dds d1

theorem dataSearch_iff (s : String) :
    (rxSearch data_regex s).isSome = true ↔
      ∃ p ds ws ts fin,
        s.toList = p ++ ds ++ ws ++ ts ++ (' ' :: 'n' :: 's' :: '/' :: 'o' :: 'p' :: fin) ∧
        ds ≠ [] ∧ allDigits ds = true ∧ (∀ c ∈ ws, isPySpace c = true) ∧
        ts ≠ [] ∧ (∀ c ∈ ts, (c.isDigit || c == '.') = true) ∧
        (fin = [] ∨ fin = ['\n']) := by
  constructor
  · intro h
    obtain ⟨caps, hc⟩ := Option.isSome_iff_exists.mp h
    obtain ⟨t, rem, hsuf, hseq⟩ := searchFrom_sound hc
    obtain ⟨ds, ws, ts, fin, ht, hdne, hddig, hws, htne, htdd, hfin, _⟩ :=
      data_regex_inv hseq
    obtain ⟨p, hp⟩ := hsuf
    refine ⟨p, ds, ws, ts, fin, ?_, hdne, hddig, hws, htne, htdd, hfin⟩
    rw [← hp, ht]
    simp [List.append_assoc]
  · rintro ⟨p, ds, ws, ts, fin, heq, hdne, hddig, hws, htne, htdd, hfin⟩
    have hseq := data_regex_intro ds ws ts fin hdne hddig hws htne htdd hfin
    refine searchFrom_complete hseq ⟨p, ?_⟩
    rw [heq]
    simp [List.append_assoc]

theorem dataSearch_caps {s : String} {caps : List String}
    (h : rxSearch data_regex s = some caps) : CapShape s caps := by
  obtain ⟨t, rem, hsuf, hseq⟩ := searchFrom_sound h
  obtain ⟨ds, ws, ts, fin, ht, hdne, hddig, hws, htne, htdd, hfin, hcaps⟩ :=
    data_regex_inv hseq
  refine ⟨ds.asString, ts.asString, ws, fin, hcaps, ?_, ?_, hws, ?_, ?_, hfin, ?_⟩
  · rw [List.toList_asString]; exact hdne
  · rw [List.toList_asString]; exact hddig
  · rw [List.toList_asString]; exact htne
  · rw [List.toList_asString]; exact htdd
  · rw [List.toList_asString, List.toList_asString]
    have : ds ++ ws ++ ts ++ (' ' :: 'n' :: 's' :: '/' :: 'o' :: 'p' :: fin) = t := by
      rw [ht]; simp [List.append_assoc]
    rw [this]
    exact hsuf

/-! ## Claims -/

/-- C1 (counterexample): the claim says a template missing the size or label
placeholder makes the pattern compiler fail, but `format_regex` performs no
cardinality check: the template string with neither placeholder compiles
successfully. -/
theorem C1_cex :
    occursCount "Bench/x" "{N}" = 0 ∧ occursCount "Bench/x" "{label}" = 0 ∧
      (format_regex "Bench/x").isSome = true :=
  ⟨rfl, rfl, rfl⟩

/-- C1 (amended): `format_regex` fails exactly when formatting the (possibly
graph-appended) template fails or a substituted pattern does not compile;
placeholder cardinality is never checked, so templates missing or repeating
the size or label placeholder succeed whenever the substituted patterns are
valid. -/
theorem C1_thm (t : String) :
    format_regex t = none ↔
      ((specificSrc t).bind reCompile = none ∨ (labelSrc t).bind reCompile = none ∨
        (graphDisabled t = false ∧ (graphSrc t).bind reCompile = none)) :=
  format_regex_eq_none_iff t

/-- C2: the end-to-end scenario: template `Bench/{label},n={N}/{graph}` on the
line `Bench/fast_path,n=10/alloc 1000 5.25 ns/op` produces exactly the data set
with one graph `alloc`, one label `fast path` (underscore replaced by a space),
and the single measurement row `(10, 1000, 5.25)`. -/
theorem C2_thm :
    runPipeline "Bench/{label},n={N}/{graph}"
        ["Bench/fast_path,n=10/alloc 1000 5.25 ns/op"] =
      some [("alloc", [("fast path",
        [[⟨10, 0⟩, ⟨1000, 0⟩, ⟨525, 2⟩]])])] ∧
    PyNum.toRat ⟨10, 0⟩ = 10 ∧ PyNum.toRat ⟨1000, 0⟩ = 1000 ∧
    PyNum.toRat ⟨525, 2⟩ = 5.25 :=
  ⟨rfl, by norm_num [PyNum.toRat], by norm_num [PyNum.toRat],
    by norm_num [PyNum.toRat]⟩

/-- C3: a template with all three placeholders (exactly once) whose substituted
patterns are valid compiles to a non-null graph matcher; with the graph
placeholder omitted it compiles to a null graph matcher. -/
theorem C3_thm :
    (∀ (t s1 s2 s3 : String), occursCount t "{N}" = 1 → occursCount t "{label}" = 1 →
      occursCount t "{graph}" = 1 →
      specificSrc t = some s1 → labelSrc t = some s2 → graphSrc t = some s3 →
      (reCompile s1).isSome = true → (reCompile s2).isSome = true →
      (reCompile s3).isSome = true →
      ∃ r1 r2 r3, format_regex t = some (r1, r2, some r3)) ∧
    (∀ (t s1 s2 : String), occursCount t "{N}" = 1 → occursCount t "{label}" = 1 →
      occursCount t "{graph}" = 0 →
      specificSrc t = some s1 → labelSrc t = some s2 →
      (reCompile s1).isSome = true → (reCompile s2).isSome = true →
      ∃ r1 r2, format_regex t = some (r1, r2, none)) := by
  constructor
  · intro t s1 s2 s3 _hN _hL hG hs1 hs2 hs3 hc1 hc2 hc3
    have hcs : containsSub t "{graph}" = true :=
      (containsSub_iff_occurs t "{graph}").mpr (by omega)
    have hgd : graphDisabled t = false := by simp [graphDisabled, hcs]
    obtain ⟨r1, hr1⟩ := Option.isSome_iff_exists.mp hc1
    obtain ⟨r2, hr2⟩ := Option.isSome_iff_exists.mp hc2
    obtain ⟨r3, hr3⟩ := Option.isSome_iff_exists.mp hc3
    refine ⟨r1, r2, r3, ?_⟩
    unfold format_regex
    simp only [hs1, hr1, hs2, hr2, hgd, hs3, hr3]
    simp
  · intro t s1 s2 _hN _hL hG hs1 hs2 hc1 hc2
    have hcs : containsSub t "{graph}" = false := by
      cases hcc : containsSub t "{graph}" with
      | false => rfl
      | true =>
        have := (containsSub_iff_occurs t "{graph}").mp hcc
        omega
    have hgd : graphDisabled t = true := by simp [graphDisabled, hcs]
    obtain ⟨r1, hr1⟩ := Option.isSome_iff_exists.mp hc1
    obtain ⟨r2, hr2⟩ := Option.isSome_iff_exists.mp hc2
    refine ⟨r1, r2, ?_⟩
    unfold format_regex
    simp only [hs1, hr1, hs2, hr2, hgd]
    simp

/-- Witness for C3 at the two scenario templates. -/
theorem C3_wit :
    (∃ r1 r2 r3, format_regex "Bench/{label},n={N}/{graph}" = some (r1, r2, some r3)) ∧
    (∃ r1 r2, format_regex "Bench/{label},n={N}" = some (r1, r2, none)) :=
  ⟨C3_thm.1 "Bench/{label},n={N}/{graph}"
      "Bench/[\\w\\d_]+,n=([\\d]+)/[\\w\\d_]+"
      "Bench/([\\w\\d_]+),n=[\\d]+/[\\w\\d_]+"
      "Bench/[\\w\\d_]+,n=[\\d]+/([\\w\\d_]+)"
      rfl rfl rfl rfl rfl rfl rfl rfl rfl,
    C3_thm.2 "Bench/{label},n={N}"
      "Bench/[\\w\\d_]+,n=([\\d]+)"
      "Bench/([\\w\\d_]+),n=[\\d]+"
      rfl rfl rfl rfl rfl rfl rfl⟩

/-- C4: with a null graph matcher every accepted line is stored under the
empty-string graph name, and scenario B produces exactly the one-group data
set claimed. -/
theorem C4_thm :
    (∀ (m : Matchers) (line g l : String) (r : Row), m.graphRx = none →
      processLine m line = .add g l r → g = "") ∧
    runPipeline "Bench/{label},n={N}" ["Bench/slow_path,n=20 500 9.0 ns/op"] =
      some [("", [("slow path", [[⟨20, 0⟩, ⟨500, 0⟩, ⟨90, 1⟩]])])] ∧
    PyNum.toRat ⟨20, 0⟩ = 20 ∧ PyNum.toRat ⟨500, 0⟩ = 500 ∧
    PyNum.toRat ⟨90, 1⟩ = 9 :=
  ⟨fun _ _ _ _ _ hg hp => processLine_graphRx_none hg hp, rfl,
    by norm_num [PyNum.toRat], by norm_num [PyNum.toRat],
    by norm_num [PyNum.toRat]⟩

/-- Witness for C4 at the scenario-B matchers and line. -/
theorem C4_wit : "" = "" :=
  C4_thm.1 (mOf "Bench/{label},n={N}") "Bench/slow_path,n=20 500 9.0 ns/op"
    "" "slow path" [⟨20, 0⟩, ⟨500, 0⟩, ⟨90, 1⟩] rfl rfl

/-- C5 (counterexample): the line `5 . ns/op` is accepted by the measurement
matcher although it does not end with integer-whitespace-decimal before the
benchmark suffix — the time field `.` is not a decimal number under any
decomposition. -/
theorem C5_cex :
    (rxSearch data_regex "5 . ns/op").isSome = true ∧
      specMeasAccepts "5 . ns/op" = false :=
  ⟨rfl, rfl⟩

/-- C5 (amended): the measurement matcher accepts exactly the lines ending
(up to an optional trailing newline) with one or more digits, then zero or
more whitespace characters, then a nonempty run of digits and dots, then the
literal benchmark suffix; the two captures are such a digit run and
digit-and-dot run in measurement position. -/
theorem C5_thm (s : String) :
    ((rxSearch data_regex s).isSome = true ↔
      ∃ p ds ws ts fin,
        s.toList = p ++ ds ++ ws ++ ts ++ (' ' :: 'n' :: 's' :: '/' :: 'o' :: 'p' :: fin) ∧
        ds ≠ [] ∧ allDigits ds = true ∧ (∀ c ∈ ws, isPySpace c = true) ∧
        ts ≠ [] ∧ (∀ c ∈ ts, (c.isDigit || c == '.') = true) ∧
        (fin = [] ∨ fin = ['\n'])) ∧
    (∀ caps, rxSearch data_regex s = some caps → CapShape s caps) :=
  ⟨dataSearch_iff s, fun _ h => dataSearch_caps h⟩

/-- Witness for C5 at a concrete accepted line. -/
theorem C5_wit : CapShape "1 5.25 ns/op" ["1", "5.25"] :=
  (C5_thm "1 5.25 ns/op").2 ["1", "5.25"] rfl

/-- C6: per-line atomicity: a processed line either leaves the data set
unchanged (skip) or appends exactly one row to exactly one series, every other
series unchanged. -/
theorem C6_thm (m : Matchers) (d : Dataset) (line : String) (d' : Dataset)
    (h : stepLine m d line = some d') :
    (processLine m line = .skip ∧ d' = d) ∨
    (∃ g l r, processLine m line = .add g l r ∧
      ∀ g' l', seriesOf d' g' l' =
        if g' = g ∧ l' = l then seriesOf d g' l' ++ [r] else seriesOf d g' l') := by
  cases hp : processLine m line with
  | skip =>
    rw [stepLine, hp] at h
    simp only [Option.some.injEq] at h
    exact Or.inl ⟨rfl, h.symm⟩
  | crash =>
    rw [stepLine, hp] at h
    simp at h
  | add g l r =>
    rw [stepLine, hp] at h
    simp only [Option.some.injEq] at h
    refine Or.inr ⟨g, l, r, rfl, ?_⟩
    intro g' l'
    rw [← h, seriesOf_insertRow]

/-- Witness for C6 at the scenario-B step. -/
theorem C6_wit :
    (processLine (mOf "Bench/{label},n={N}") "Bench/slow_path,n=20 500 9.0 ns/op" = .skip ∧
      [("", [("slow path", [[(⟨20, 0⟩ : PyNum), ⟨500, 0⟩, ⟨90, 1⟩]])])] = ([] : Dataset)) ∨
    (∃ g l r,
      processLine (mOf "Bench/{label},n={N}") "Bench/slow_path,n=20 500 9.0 ns/op" = .add g l r ∧
      ∀ g' l', seriesOf [("", [("slow path", [[(⟨20, 0⟩ : PyNum), ⟨500, 0⟩, ⟨90, 1⟩]])])] g' l' =
        if g' = g ∧ l' = l then seriesOf ([] : Dataset) g' l' ++ [r]
        else seriesOf ([] : Dataset) g' l') :=
  C6_thm (mOf "Bench/{label},n={N}") [] "Bench/slow_path,n=20 500 9.0 ns/op"
    [("", [("slow path", [[⟨20, 0⟩, ⟨500, 0⟩, ⟨90, 1⟩]])])] rfl

/-- C7: order preservation: the series stored for a graph and label lists the
rows contributed by the accepted lines in input order. -/
theorem C7_thm (m : Matchers) (lines : List String) (d : Dataset) (g l : String)
    (h : aggregate m lines = some d) :
    seriesOf d g l = lines.filterMap (rowSelector m g l) := by
  have := aggregateFrom_series m g l lines [] d h
  simpa [seriesOf] using this

/-- Witness for C7 at the scenario-A stream. -/
theorem C7_wit :
    seriesOf [("alloc", [("fast path", [[(⟨10, 0⟩ : PyNum), ⟨1000, 0⟩, ⟨525, 2⟩]])])]
        "alloc" "fast path" =
      ["Bench/fast_path,n=10/alloc 1000 5.25 ns/op"].filterMap
        (rowSelector (mOf "Bench/{label},n={N}/{graph}") "alloc" "fast path") :=
  C7_thm (mOf "Bench/{label},n={N}/{graph}")
    ["Bench/fast_path,n=10/alloc 1000 5.25 ns/op"]
    [("alloc", [("fast path", [[⟨10, 0⟩, ⟨1000, 0⟩, ⟨525, 2⟩]])])]
    "alloc" "fast path" rfl

/-- C8 (counterexample): a line passing both the measurement matcher and the
size matcher whose time capture `1.2.3` fails numeric conversion, so the
fatal conversion branch is reachable for matched lines. -/
theorem C8_cex :
    processLine (mOf "b{label},n={N}") "bfoo,n=7 5 1.2.3 ns/op" = .crash ∧
    (rxSearch data_regex "bfoo,n=7 5 1.2.3 ns/op").isSome = true ∧
    (rxSearch (mOf "b{label},n={N}").specific "bfoo,n=7 5 1.2.3 ns/op").isSome = true ∧
    pyFloat "1.2.3" = none :=
  ⟨rfl, rfl, rfl, rfl⟩

/-- C8 (amended): the iteration-count capture of the measurement matcher is a
digit run and always converts, and every capture of a matcher whose capturing
groups are all the substituted digit class (as the size matcher of a template
without its own groups) always converts; the time capture is only a
digit-and-dot run and its conversion can fail. -/
theorem C8_thm :
    (∀ (s : String) (caps : List String), rxSearch data_regex s = some caps →
      ∃ a b, caps = [a, b] ∧ (pyFloat a).isSome = true) ∧
    (∀ (rx : Rx) (s : String) (caps : List String), digitGroupsOnly rx = true →
      rxSearch rx s = some caps → ∀ a ∈ caps, (pyFloat a).isSome = true) := by
  constructor
  · intro s caps h
    obtain ⟨a, b, ws, fin, hcaps, hne, hdig, _, _, _, _, _⟩ := dataSearch_caps h
    refine ⟨a, b, hcaps, ?_⟩
    have := pyFloat_digits a.toList hne hdig
    rwa [String.asString_toList] at this
  · intro rx s caps hdg h a ha
    obtain ⟨t, rem, _, hseq⟩ := searchFrom_sound h
    obtain ⟨hne, hdig⟩ := digit_caps hdg hseq a ha
    have := pyFloat_digits a.toList hne hdig
    rwa [String.asString_toList] at this

/-- Witness for C8 at the scenario-B size matcher. -/
theorem C8_wit : (pyFloat "20").isSome = true :=
  C8_thm.2 (mOf "Bench/{label},n={N}").specific "Bench/slow_path,n=20 500 9.0 ns/op"
    ["20"] rfl rfl "20" (List.mem_singleton.mpr rfl)

/-- C9: all matchers use unanchored substring search, so arbitrary leading
text preserves acceptance of every matcher, and a fully accepted line is never
dropped after prepending text (it is added or, at worst, aborts on a changed
capture, never silently skipped). -/
theorem C9_thm :
    (∀ (rx : Rx) (p s : String), (rxSearch rx s).isSome = true →
      (rxSearch rx (p ++ s)).isSome = true) ∧
    (∀ (m : Matchers) (p line g l : String) (r : Row),
      processLine m line = .add g l r → processLine m (p ++ line) ≠ .skip) :=
  ⟨fun _ p _ h => rxSearch_prepend p h,
    fun _ p _ _ _ _ hp => processLine_prefix_ne_skip p hp⟩

/-- Witness for C9 with a concrete prepended benchmark-name text. -/
theorem C9_wit :
    (rxSearch data_regex ("BenchmarkFoo-8 " ++ "Bench/slow_path,n=20 500 9.0 ns/op")).isSome
        = true ∧
    processLine (mOf "Bench/{label},n={N}/{graph}")
        ("BenchmarkFoo-8 " ++ "Bench/fast_path,n=10/alloc 1000 5.25 ns/op") ≠ .skip :=
  ⟨C9_thm.1 data_regex "BenchmarkFoo-8 " "Bench/slow_path,n=20 500 9.0 ns/op" rfl,
    C9_thm.2 (mOf "Bench/{label},n={N}/{graph}") "BenchmarkFoo-8 "
      "Bench/fast_path,n=10/alloc 1000 5.25 ns/op" "alloc" "fast path"
      [⟨10, 0⟩, ⟨1000, 0⟩, ⟨525, 2⟩] rfl⟩

/-- C10: the data set never contains an empty group or an empty series: the
invariant holds initially, is preserved by every processed line, and holds of
every aggregation result. -/
theorem C10_thm :
    InvNE ([] : Dataset) ∧
    (∀ (m : Matchers) (d : Dataset) (line : String) (d' : Dataset),
      InvNE d → stepLine m d line = some d' → InvNE d') ∧
    (∀ (m : Matchers) (lines : List String) (d : Dataset),
      aggregate m lines = some d → InvNE d) :=
  ⟨fun p hp => absurd hp (List.not_mem_nil p),
    fun _ _ _ _ h hs => InvNE_step h hs,
    fun _ lines d h =>
      InvNE_aggregateFrom lines [] d (fun p hp => absurd hp (List.not_mem_nil p)) h⟩

/-- Witness for C10 at the scenario-B aggregation. -/
theorem C10_wit : InvNE [("", [("slow path", [[(⟨20, 0⟩ : PyNum), ⟨500, 0⟩, ⟨90, 1⟩]])])] :=
  C10_thm.2.2 (mOf "Bench/{label},n={N}") ["Bench/slow_path,n=20 500 9.0 ns/op"]
    [("", [("slow path", [[⟨20, 0⟩, ⟨500, 0⟩, ⟨90, 1⟩]])])] rfl
